import Mathlib

/-!
Verification development for the `rarch` file organizer.

The engine (`src/engine.rs`) is embedded shallowly: paths are strings,
filesystem state is the list of existing file paths, metadata / content
sniffing / content digests are inputs (fields of `FileInfo`), and the
external collaborators (regex crate, AI oracle) are parameters of `Env`.
Directories are not modeled: `create_dir_all` is treated as always
succeeding, and `exists()` checks are membership in the file list.
-/

namespace Rarch

/-! ### String helpers (substring search, replace, case folding) -/

/-- Substring test on character lists: is `pat` an infix of the list? -/
def listInfix (pat : List Char) : List Char → Bool
  | [] => pat.isEmpty
  | c :: rest => pat.isPrefixOf (c :: rest) || listInfix pat rest

/-- Rust `str::contains` for a literal pattern. -/
def strContains (s pat : String) : Bool := listInfix pat.toList s.toList

/-- One fuel-indexed pass of literal replacement (fuel bounds the scan;
`s.length` steps always suffice since each step consumes a character).
All patterns used by the engine are nonempty placeholder literals. -/
def replaceFuel (pat rep : List Char) : Nat → List Char → List Char
  | _, [] => []
  | 0, s => s
  | n + 1, c :: rest =>
    if pat.isPrefixOf (c :: rest) && !pat.isEmpty then
      rep ++ replaceFuel pat rep n (List.drop (pat.length - 1) rest)
    else
      c :: replaceFuel pat rep n rest

/-- Rust `str::replace` for a nonempty literal pattern. -/
def strReplace (s pat rep : String) : String :=
  String.mk (replaceFuel pat.toList rep.toList s.toList.length s.toList)

/-- Rust `str::to_lowercase` (ASCII-adequate for the engine's uses). -/
def strLower (s : String) : String := String.mk (s.toList.map Char.toLower)

/-- Rust `str::starts_with` for a literal pattern. -/
def strStarts (s pat : String) : Bool := pat.toList.isPrefixOf s.toList

/-- Rust `str::ends_with` for a literal pattern. -/
def strEnds (s pat : String) : Bool := pat.toList.isSuffixOf s.toList

/-- Drop the last `n` characters of a string. -/
def strDropRight (s : String) (n : Nat) : String :=
  String.mk (s.toList.take (s.toList.length - n))

/-! ### Path helpers, mirroring `std::path` as used by the engine -/

/-- Characters of the last path component. -/
def fileNameL (p : List Char) : List Char :=
  (p.reverse.takeWhile (fun c => c != '/')).reverse

/-- Rust `Path::file_name` (total: the last component). -/
def fileName (p : String) : String := String.mk (fileNameL p.toList)

/-- Rust `Path::parent` as a string (`""` when there is no separator). -/
def dirName (p : String) : String :=
  let cs := p.toList
  let keep := cs.length - (fileNameL cs).length
  if keep == 0 then ""
  else if keep == 1 then "/"
  else String.mk (cs.take (keep - 1))

/-- Split a file name into Rust `file_stem` / `extension`: the extension is
what follows the last dot, except that a lone leading dot is part of the
stem (hidden files). -/
def stemExtL (name : List Char) : List Char × Option (List Char) :=
  let rev := name.reverse
  let extRev := rev.takeWhile (fun c => c != '.')
  let rest := rev.drop extRev.length
  match rest with
  | [] => (name, none)
  | _ :: stemRev =>
    if stemRev.isEmpty then (name, none)
    else (stemRev.reverse, some extRev.reverse)

/-- Rust `Path::file_stem`, defaulted to the whole name. -/
def fileStem (p : String) : String := String.mk (stemExtL (fileNameL p.toList)).1

/-- Rust `Path::extension`. -/
def fileExt (p : String) : Option String := (stemExtL (fileNameL p.toList)).2.map String.mk

/-- The filename's literal extension, case-folded, as computed at the top of
`Engine::match_rule`. -/
def fileExtLower (p : String) : Option String := (fileExt p).map strLower

/-- Rust `Path::is_absolute` on Unix. -/
def isAbsolute (p : String) : Bool := strStarts p "/"

/-- Rust `PathBuf::join`, up to path equivalence (joining the empty relative
path yields the base itself, matching `Path` component equality). -/
def pathJoin (base rel : String) : String :=
  if isAbsolute rel then rel
  else if rel == "" then base
  else if base == "" then rel
  else base ++ "/" ++ rel

/-! ### Decimal rendering and parsing -/

/-- Fuel-indexed decimal digits of `n`. -/
def natToStrAux : Nat → Nat → List Char
  | 0, _ => []
  | f + 1, n => if n < 10 then [Nat.digitChar n] else natToStrAux f (n / 10) ++ [Nat.digitChar (n % 10)]

/-- Decimal rendering of a natural number. -/
def natToStr (n : Nat) : String := String.mk (natToStrAux (n + 1) n)

/-- Value of a decimal digit character. -/
def digitVal (c : Char) : Option Nat :=
  if c.isDigit then some (c.toNat - 48) else none

/-- Accumulating decimal parse of a digit list. -/
def digitsToNatAux : List Char → Nat → Option Nat
  | [], acc => some acc
  | c :: cs, acc =>
    match digitVal c with
    | some d => digitsToNatAux cs (acc * 10 + d)
    | none => none

/-- Rust `str::parse::<i64>` (optional sign, at least one digit). -/
def parseIntStr (s : String) : Option Int :=
  match s.toList with
  | [] => none
  | '-' :: rest =>
    if rest.isEmpty then none else (digitsToNatAux rest 0).map (fun n => -(n : Int))
  | '+' :: rest =>
    if rest.isEmpty then none else (digitsToNatAux rest 0).map (fun n => (n : Int))
  | cs => (digitsToNatAux cs 0).map (fun n => (n : Int))

/-! ### Data model (`src/config.rs`, `src/journal.rs`) -/

/-- Conflict policy of a rule; `rename` is the `Default`. -/
inductive ConflictStrategy
  | rename
  | overwrite
  | skip
deriving DecidableEq

/-- One classification rule (`config::Rule`; `ai_extract` is unused by the
engine and omitted). -/
structure Rule where
  name : String := ""
  extensions : Option (List String) := none
  regex : Option String := none
  ai_prompt : Option String := none
  ai_rename_prompt : Option String := none
  target : String := ""
  min_size : Option Nat := none
  max_age : Option String := none
  mime : Option String := none
  type : Option String := none
  conflict : Option ConflictStrategy := none
deriving DecidableEq

/-- Modification-time data: `age` is now minus mtime in seconds, the date
fields are the `%Y`/`%m`/`%d` renderings used for placeholders. -/
structure ModTime where
  age : Int
  year : String := ""
  month : String := ""
  day : String := ""
deriving DecidableEq

/-- Result of `std::fs::metadata`. -/
structure Meta where
  size : Nat
  modified : Option ModTime := none
deriving DecidableEq

/-- Everything the engine learns about one path by reading the filesystem:
metadata (`none` when unreadable), the `infer` crate's sniffed
extension/mime from the first bytes, the utf8-checked snippet used for AI
matching, the lossy snippet used for AI renaming, and the SHA-256 content
digest (`none` when hashing fails). -/
structure FileInfo where
  isFile : Bool := true
  meta : Option Meta := none
  sniffedExt : Option String := none
  sniffedMime : Option String := none
  snippet : Option String := none
  lossySnippet : Option String := none
  digest : Option String := none
deriving DecidableEq

/-- The optional AI oracle (`ai::AiOracle`): a matching capability and a
name-suggestion capability, both already made total (fail-open) as the
source does. -/
structure Oracle where
  matches_prompt : String → Option String → String → Bool
  suggest : String → Option String → String → String

/-- The loaded configuration: the ordered rule list. -/
structure Config where
  rules : List Rule

/-- External world: per-path file information, the regex crate
(`none` = pattern failed to compile), and the optional oracle. -/
structure Env where
  world : String → FileInfo
  regex : String → Option (String → Bool)
  oracle : Option Oracle

/-- Planned action (`journal::OpType`). -/
inductive OpType
  | move
  | hardLink (original : String)
deriving DecidableEq

/-- Planned operation (`journal::Operation`; `from` is a Lean keyword, so the
field is `from_`). -/
structure Operation where
  from_ : String
  to_ : String
  opType : OpType
  ruleName : Option String := none
deriving DecidableEq

/-! ### `Engine::parse_age` (durations in seconds) -/

/-- Rust `Engine::parse_age`: number plus one-letter unit, converted to
seconds (months are 30 days, years 365, as in the source). -/
def parse_age (s : String) : Option Int :=
  let cs := s.toList
  if cs.isEmpty then none
  else
    let numPart := cs.take (cs.length - 1)
    let unitPart := cs.drop (cs.length - 1)
    match parseIntStr (String.mk numPart) with
    | none => none
    | some n =>
      match String.mk (unitPart.map Char.toLower) with
      | "d" => some (n * 86400)
      | "w" => some (n * 604800)
      | "m" => some (n * 2592000)
      | "y" => some (n * 31536000)
      | "h" => some (n * 3600)
      | _ => none

/-! ### `Engine::match_rule` predicates -/

/-- Declared-mime predicate: exact match or a wildcard of shape `type/*`
matched as a prefix (the source keeps the slash when trimming the star). -/
def mimeTest (r : Rule) (f : FileInfo) : Bool :=
  match r.mime, f.sniffedMime with
  | some rm, some am => rm == am || (strEnds rm "/*" && strStarts am (strDropRight rm 1))
  | _, _ => false

/-- Semantic type preset predicate over the sniffed mime. -/
def typeTest (r : Rule) (f : FileInfo) : Bool :=
  match r.type, f.sniffedMime with
  | some t, some am =>
    match t with
    | "image" => strStarts am "image/"
    | "video" => strStarts am "video/"
    | "audio" => strStarts am "audio/"
    | "document" => strContains am "pdf" || strContains am "word" || strContains am "text"
    | _ => false
  | _, _ => false

/-- Extension-set predicate: each declared extension is lowercased and
compared against the sniffed extension or the lowercased literal one. -/
def extTest (r : Rule) (f : FileInfo) (p : String) : Bool :=
  match r.extensions with
  | some exts =>
    exts.any (fun e =>
      let eLow := strLower e
      some eLow == f.sniffedExt || some eLow == fileExtLower p)
  | none => false

/-- Filename-regex predicate (compile failure means no match). -/
def regexTestB (env : Env) (r : Rule) (p : String) : Bool :=
  match r.regex with
  | some rx =>
    match env.regex rx with
    | some matcher => matcher (fileName p)
    | none => false
  | none => false

/-- AI-prompt predicate, as a pure disjunct (only used in statements; the
cascade below is the executable source shape). -/
def aiTestB (env : Env) (r : Rule) (p : String) (f : FileInfo) : Bool :=
  match r.ai_prompt, env.oracle with
  | some pr, some o => o.matches_prompt (fileName p) f.snippet pr
  | _, _ => false

/-- Predicate cascade of `Engine::match_rule` for one rule. Returns the
matched flag plus whether the external oracle was actually consulted. -/
def rule_match (env : Env) (p : String) (f : FileInfo) (r : Rule) : Bool × Bool :=
  if mimeTest r f then (true, false)
  else if typeTest r f then (true, false)
  else if extTest r f p then (true, false)
  else if regexTestB env r p then (true, false)
  else
    match r.ai_prompt, env.oracle with
    | some pr, some o => (o.matches_prompt (fileName p) f.snippet pr, true)
    | _, _ => (false, false)

/-- Size AND-filter: fails when the file is smaller than `min_size`. -/
def sizeOk (m : Meta) (r : Rule) : Bool :=
  match r.min_size with
  | some ms => if m.size < ms then false else true
  | none => true

/-- Age AND-filter: fails when the file is younger than `max_age`; an
unparsable age or unavailable mtime leaves the rule eligible. -/
def ageOk (m : Meta) (r : Rule) : Bool :=
  match r.max_age with
  | some s =>
    match parse_age s with
    | some d =>
      match m.modified with
      | some mt => if mt.age < d then false else true
      | none => true
    | none => true
  | none => true

/-- Rule scan of `Engine::match_rule`: predicate cascade, then the size and
age filters, `continue` (recurse) on any failure. -/
def matchLoop (env : Env) (p : String) (f : FileInfo) (m : Meta) : List Rule → Option Rule
  | [] => none
  | r :: rs =>
    if (rule_match env p f r).1 then
      if sizeOk m r then
        if ageOk m r then some r
        else matchLoop env p f m rs
      else matchLoop env p f m rs
    else matchLoop env p f m rs

/-- Rust `Engine::match_rule`: `None` when metadata is unreadable, else the
rule scan. -/
def match_rule (env : Env) (cfg : Config) (p : String) : Option Rule :=
  let f := env.world p
  match f.meta with
  | none => none
  | some m => matchLoop env p f m cfg.rules

/-- Full per-rule success: predicates match and both AND-filters pass. -/
def fullPass (env : Env) (p : String) (f : FileInfo) (m : Meta) (r : Rule) : Bool :=
  (rule_match env p f r).1 && (sizeOk m r && ageOk m r)

/-! ### `Engine::resolve_placeholders` and `Engine::resolve_target_path` -/

/-- Prompt context for AI renaming: `ai_rename_prompt`, else `ai_prompt`,
else the built-in default. -/
def aiContext (r : Rule) : String :=
  match r.ai_rename_prompt with
  | some x => x
  | none =>
    match r.ai_prompt with
    | some x => x
    | none => "Suggest a descriptive filename without extension"

/-- Rust `Engine::resolve_placeholders`: substitute `${name}`,
`${filename}`, `${ai_name}` (oracle suggestion, falling back to the stem
when no oracle is configured), `${ext}` (only when the file has a literal
extension), then the date placeholders (only when metadata and mtime are
readable). -/
def resolve_placeholders (env : Env) (rule : Rule) (p : String) : String :=
  let f := env.world p
  let stem := fileStem p
  let filename := fileName p
  let r1 := strReplace rule.target "${name}" stem
  let r2 := strReplace r1 "${filename}" filename
  let r3 :=
    if strContains r2 "${ai_name}" then
      match env.oracle with
      | some o => strReplace r2 "${ai_name}" (o.suggest filename f.lossySnippet (aiContext rule))
      | none => strReplace r2 "${ai_name}" stem
    else r2
  let r4 :=
    match fileExt p with
    | some e => strReplace r3 "${ext}" e
    | none => r3
  match f.meta with
  | some m =>
    match m.modified with
    | some mt =>
      strReplace (strReplace (strReplace r4 "${year}" mt.year) "${month}" mt.month) "${day}" mt.day
    | none => r4
  | none => r4

/-- Does the rule target contain a filename-shaping placeholder? (tested on
the raw target, exactly as the source does). -/
def hasFilenamePlaceholder (target : String) : Bool :=
  strContains target "${ai_name}" || strContains target "${ext}" ||
  strContains target "${name}" || strContains target "${filename}"

/-- Rust `Engine::resolve_target_path`: a target with a filename-shaping
placeholder is the whole destination path (made absolute under the base
directory when relative); otherwise it is a destination directory and the
original filename is appended. -/
def resolve_target_path (env : Env) (base : String) (rule : Rule) (p : String) : String :=
  let resolved := resolve_placeholders env rule p
  if hasFilenamePlaceholder rule.target then
    if isAbsolute resolved then resolved else pathJoin base resolved
  else
    let targetDir := if isAbsolute resolved then resolved else pathJoin base resolved
    pathJoin targetDir (fileName p)

/-! ### Planning: `Engine::process_single_file` and `Engine::dry_run` -/

/-- Rust `Engine::process_single_file` (watch mode): classify one path,
resolve its destination, drop the operation when the destination equals the
source, and always plan a plain `Move`. -/
def process_single_file (env : Env) (cfg : Config) (base : String) (p : String) :
    Option Operation :=
  if !(env.world p).isFile then none
  else
    match match_rule env cfg p with
    | some rule =>
      let t := resolve_target_path env base rule p
      if p == t then none
      else some { from_ := p, to_ := t, opType := OpType.move, ruleName := some rule.name }
    | none => none

/-- One file of the `dry_run` batch: classify, resolve, and consult the
digest table under the lock: a known digest becomes `HardLink` to the
stored destination, a new digest registers this destination and becomes
`Move`, a failed digest becomes `Move` without touching the table. -/
def plan_file (env : Env) (cfg : Config) (base : String) (p : String)
    (table : List (String × String)) : Option Operation × List (String × String) :=
  match match_rule env cfg p with
  | none => (none, table)
  | some rule =>
    let t := resolve_target_path env base rule p
    match (env.world p).digest with
    | none => (some { from_ := p, to_ := t, opType := OpType.move, ruleName := some rule.name }, table)
    | some h =>
      match table.lookup h with
      | some original =>
        (some { from_ := p, to_ := t, opType := OpType.hardLink original, ruleName := some rule.name },
         table)
      | none =>
        (some { from_ := p, to_ := t, opType := OpType.move, ruleName := some rule.name },
         (h, t) :: table)

/-- The `dry_run` scan over the batch, threading the digest table. The
parallel batch of the source is linearized in list order (the mutex around
the table makes registrations a linear sequence; arrival order only breaks
the tie for which file is canonical). -/
def dryRunAux (env : Env) (cfg : Config) (base : String) :
    List String → List (String × String) → List Operation × List (String × String)
  | [], table => ([], table)
  | p :: ps, table =>
    match plan_file env cfg base p table with
    | (none, t1) => dryRunAux env cfg base ps t1
    | (some op, t1) =>
      let r := dryRunAux env cfg base ps t1
      (op :: r.1, r.2)

/-- Rust `Engine::dry_run`: the planned operations for a batch of files. -/
def dry_run (env : Env) (cfg : Config) (base : String) (ps : List String) : List Operation :=
  (dryRunAux env cfg base ps []).1

/-- Content digest of an operation's source file. -/
def dg (env : Env) (p : String) : Option String := (env.world p).digest

/-! ### `Engine::handle_conflict` -/

/-- Result of `Engine::handle_conflict`: the source returns
`anyhow::Result<Option<PathBuf>>` but can also panic on the `unwrap` of the
re-run rule match; `panic` models that. -/
inductive HCResult
  | panic
  | error
  | ok (result : Option String)
deriving DecidableEq

/-- Candidate name `"{stem} ({i})"` / `"{stem} ({i}).{ext}"` probed by the
Rename policy. -/
def renameName (stem extS : String) (i : Nat) : String :=
  if extS == "" then stem ++ " (" ++ natToStr i ++ ")"
  else stem ++ " (" ++ natToStr i ++ ")." ++ extS

/-- The probed candidate path for conflict index `i`, in the destination's
directory. -/
def renameCandidate (dest : String) (i : Nat) : String :=
  pathJoin (dirName dest) (renameName (fileStem dest) ((fileExt dest).getD "") i)

/-- The `for i in 1..999` probe loop: try indices `i, i+1, ...` for `fuel`
steps, returning the first candidate that does not exist. -/
def rename_probe (fs : List String) (dest : String) : Nat → Nat → Option String
  | _, 0 => none
  | i, fuel + 1 =>
    let cand := renameCandidate dest i
    if cand ∈ fs then rename_probe fs dest (i + 1) fuel else some cand

/-- Rust `Engine::handle_conflict`: an unoccupied destination passes through;
otherwise the matched rule's policy (default Rename) decides; the rule is
re-matched on the source and unwrapped (panic when no rule matches now). -/
def handle_conflict (env : Env) (cfg : Config) (fs : List String) (op : Operation) : HCResult :=
  if op.to_ ∈ fs then
    match match_rule env cfg op.from_ with
    | none => HCResult.panic
    | some rule =>
      match rule.conflict.getD ConflictStrategy.rename with
      | ConflictStrategy.skip => HCResult.ok none
      | ConflictStrategy.overwrite => HCResult.ok (some op.to_)
      | ConflictStrategy.rename =>
        match rename_probe fs op.to_ 1 998 with
        | some p => HCResult.ok (some p)
        | none => HCResult.error
  else HCResult.ok (some op.to_)

/-! ### `Engine::execute` -/

/-- `fs_extra::file::move_file` with default options: fails when the source
is missing or the destination already exists. -/
def fsMove (fs : List String) (a b : String) : Option (List String) :=
  if a ∈ fs ∧ b ∉ fs then some (b :: fs.erase a) else none

/-- The filesystem effect of one operation at its final destination:
`Move` is a rename; `HardLink` removes the source then links the stored
canonical path to the destination, and is a vacuous success when the source
no longer exists. Returns the new state and whether the effect succeeded. -/
def doOp (fs : List String) (op : Operation) (finalTo : String) : List String × Bool :=
  match op.opType with
  | OpType.move =>
    match fsMove fs op.from_ finalTo with
    | some fs2 => (fs2, true)
    | none => (fs, false)
  | OpType.hardLink original =>
    if op.from_ ∈ fs then
      let fs1 := fs.erase op.from_
      if original ∈ fs1 ∧ finalTo ∉ fs1 then (finalTo :: fs1, true)
      else (fs1, false)
    else (fs, true)

/-- Observable events of the execute loop, in program order. -/
inductive Ev
  | conflictSkip (op : Operation)
  | conflictError (op : Operation)
  | attempt (op : Operation) (finalTo : String)
  | failed (op : Operation) (finalTo : String)
  | linked (original : String) (finalTo : String)
  | append (op : Operation) (finalTo : String)
deriving DecidableEq

/-- Deltas of one iteration of the execute loop: new filesystem, panic flag,
appended in-memory journal entries, appended journal-file entries, emitted
events. -/
structure StepOut where
  fs : List String
  panicked : Bool
  dJournal : List Operation
  dJfile : List Operation
  dTrace : List Ev
deriving DecidableEq

/-- One iteration of the loop in `Engine::execute`: resolve the conflict,
perform the effect, and on success record the finalized operation in the
in-memory journal and (when a journal path was given, `jp`) append it to
the journal file before the loop continues. -/
def stepCore (env : Env) (cfg : Config) (jp : Bool) (fs : List String) (pk : Bool)
    (op : Operation) : StepOut :=
  if pk then ⟨fs, true, [], [], []⟩ else
  match handle_conflict env cfg fs op with
  | HCResult.panic => ⟨fs, true, [], [], []⟩
  | HCResult.error => ⟨fs, false, [], [], [Ev.conflictError op]⟩
  | HCResult.ok none => ⟨fs, false, [], [], [Ev.conflictSkip op]⟩
  | HCResult.ok (some finalTo) =>
    let r := doOp fs op finalTo
    if r.2 then
      let fop := { op with to_ := finalTo }
      let linkedEv :=
        match op.opType with
        | OpType.hardLink original =>
          if op.from_ ∈ fs then [Ev.linked original finalTo] else []
        | _ => []
      ⟨r.1, false, [fop], if jp then [fop] else [],
        [Ev.attempt op finalTo] ++ linkedEv ++ (if jp then [Ev.append op finalTo] else [])⟩
    else ⟨r.1, false, [], [], [Ev.attempt op finalTo, Ev.failed op finalTo]⟩

/-- Aggregate outcome of the execute loop. -/
structure RunOut where
  fs : List String
  journal : List Operation
  jfile : List Operation
  trace : List Ev
  panicked : Bool
deriving DecidableEq

/-- The sequential loop of `Engine::execute` over the planned operations. -/
def execLoop (env : Env) (cfg : Config) (jp : Bool) :
    List Operation → List String → Bool → RunOut
  | [], fs, pk => ⟨fs, [], [], [], pk⟩
  | op :: rest, fs, pk =>
    let s := stepCore env cfg jp fs pk op
    let r := execLoop env cfg jp rest s.fs s.panicked
    ⟨r.fs, s.dJournal ++ r.journal, s.dJfile ++ r.jfile, s.dTrace ++ r.trace, r.panicked⟩

/-- The execute loop started on a planned batch. -/
def executeOps (env : Env) (cfg : Config) (jp : Bool) (fs : List String)
    (ops : List Operation) : RunOut :=
  execLoop env cfg jp ops fs false

/-- Rust `Engine::execute`: plan with `dry_run`, then run the loop. -/
def execute (env : Env) (cfg : Config) (base : String) (jp : Bool) (fs : List String)
    (ps : List String) : RunOut :=
  executeOps env cfg jp fs (dry_run env cfg base ps)

/-! ### Undo (`main.rs`, `Commands::Undo`) -/

/-- One journal entry during undo: a still-existing destination is moved
back to the recorded source (both `Move` and `HardLink` entries are handled
identically by the source); a missing destination is skipped. `none` models
the `?` that aborts the replay when the move itself fails. -/
def undoStep (fs : List String) (op : Operation) : Option (List String × Nat) :=
  if op.to_ ∈ fs then (fsMove fs op.to_ op.from_).map (fun fs2 => (fs2, 1))
  else some (fs, 0)

/-- The undo loop over an already-reversed entry list, counting restored
files. -/
def undoLoop : List String → List Operation → Option (List String × Nat)
  | fs, [] => some (fs, 0)
  | fs, op :: rest =>
    match undoStep fs op with
    | some (fs2, c) => (undoLoop fs2 rest).map (fun r => (r.1, c + r.2))
    | none => none

/-- Rust `Commands::Undo`: replay the loaded journal's operations in reverse
order. -/
def undo (fs : List String) (journalOps : List Operation) : Option (List String × Nat) :=
  undoLoop fs journalOps.reverse

/-! ### Concrete scenarios used to instantiate the claims -/

/-- Environment with no oracle and no regex engine, every path readable with
size 5 and no mtime. -/
def envC7 : Env :=
  { world := fun _ => { meta := some { size := 5 } },
    regex := fun _ => none,
    oracle := none }

/-- The rule target of the template-resolution example. -/
def ruleC7 : Rule := { target := "${ext}/${name}_copy" }

/-- World for the no-op planning scenario: one sniffed binary file under the
base directory. -/
def envC3 : Env :=
  { world := fun p =>
      if p == "/base/x" then { meta := some { size := 5 }, sniffedExt := some "bin" }
      else {},
    regex := fun _ => none,
    oracle := none }

/-- A rule whose target resolves back to the source path itself. -/
def cfgC3 : Config :=
  { rules := [{ name := "r", extensions := some ["bin"], target := "${filename}" }] }

/-- World for the watch-mode scenario: one text file. -/
def envW3 : Env :=
  { world := fun p => if p == "/b/f.txt" then { meta := some { size := 5 } } else {},
    regex := fun _ => none,
    oracle := none }

/-- Plain move-into-directory rule for text files. -/
def cfgW3 : Config :=
  { rules := [{ name := "r", extensions := some ["txt"], target := "docs" }] }

/-- The operation planned for the watch-mode scenario. -/
def opW3 : Operation :=
  { from_ := "/b/f.txt", to_ := "/b/docs/f.txt", opType := OpType.move, ruleName := some "r" }

/-- World for the dedup scenario: two files with the same digest and one
whose digest computation fails. -/
def envW2 : Env :=
  { world := fun p =>
      if p == "/b/a.txt" then { meta := some { size := 1 }, digest := some "h1" }
      else if p == "/b/b.txt" then { meta := some { size := 1 }, digest := some "h1" }
      else if p == "/b/c.txt" then { meta := some { size := 1 }, digest := none }
      else {},
    regex := fun _ => none,
    oracle := none }

/-- Move-into-directory rule for the dedup scenario. -/
def cfgW2 : Config :=
  { rules := [{ name := "r", extensions := some ["txt"], target := "out" }] }

/-- World for the conflict scenarios: one classified pdf file. -/
def envW4 : Env :=
  { world := fun p => if p == "/b/s.pdf" then { meta := some { size := 1 } } else {},
    regex := fun _ => none,
    oracle := none }

/-- Rule (default Rename policy) for the conflict scenario. -/
def ruleW4 : Rule := { name := "r", extensions := some ["pdf"], target := "out" }

/-- Configuration of the conflict scenario. -/
def cfgW4 : Config := { rules := [ruleW4] }

/-- The planned operation of the conflict scenario. -/
def opW4 : Operation :=
  { from_ := "/b/s.pdf", to_ := "/b/out/s.pdf", opType := OpType.move, ruleName := some "r" }

/-- Filesystem of the conflict scenario: destination and first rename
candidate both occupied. -/
def fsW4 : List String := ["/b/s.pdf", "/b/out/s.pdf", "/b/out/s (1).pdf"]

/-- Trivial environment for scenarios that never consult rules. -/
def envW5 : Env :=
  { world := fun _ => {}, regex := fun _ => none, oracle := none }

/-- Empty configuration. -/
def cfgW5 : Config := { rules := [] }

/-- A plain move whose destination is free. -/
def opW5 : Operation :=
  { from_ := "/b/s.txt", to_ := "/b/d/s.txt", opType := OpType.move, ruleName := some "r" }

/-- Filesystem for the journaling scenario. -/
def fsW5 : List String := ["/b/s.txt"]

/-- First completed move of the undo scenario. -/
def opW6a : Operation :=
  { from_ := "/b/a.txt", to_ := "/b/out/a.txt", opType := OpType.move, ruleName := some "r" }

/-- Second completed move of the undo scenario. -/
def opW6b : Operation :=
  { from_ := "/b/b.txt", to_ := "/b/out/b.txt", opType := OpType.move, ruleName := some "r" }

/-- Journal for the undo scenario: two completed moves. -/
def jW6 : List Operation := [opW6a, opW6b]

/-- Filesystem for the undo scenario: the first destination still exists,
the second was deleted after the run. -/
def fsW6 : List String := ["/b/out/a.txt"]

/-- World for the stale-canonical-path scenario: two files with identical
content. -/
def envC9 : Env :=
  { world := fun p =>
      if p == "/b/a.txt" then { meta := some { size := 1 }, digest := some "h" }
      else if p == "/b/b.txt" then { meta := some { size := 1 }, digest := some "h" }
      else {},
    regex := fun _ => none,
    oracle := none }

/-- Move-into-directory rule (default Rename policy) for the
stale-canonical-path scenario. -/
def cfgC9 : Config :=
  { rules := [{ name := "r", extensions := some ["txt"], target := "out" }] }

/-- Filesystem for the stale-canonical-path scenario: the canonical
destination is already occupied by an unrelated file, forcing a rename. -/
def fsC9 : List String := ["/b/a.txt", "/b/b.txt", "/b/out/a.txt"]

/-- World for the panic scenario: the operation's source has unreadable
metadata at conflict-resolution time. -/
def envW10 : Env :=
  { world := fun _ => { meta := none }, regex := fun _ => none, oracle := none }

/-- Configuration for the panic scenario. -/
def cfgW10 : Config := { rules := [{ name := "r", extensions := some ["txt"], target := "out" }] }

/-- Operation whose destination is occupied while its source no longer
matches any rule. -/
def opW10 : Operation :=
  { from_ := "/x/src.txt", to_ := "/x/dst.txt", opType := OpType.move, ruleName := some "r" }

/-- Filesystem for the panic scenario. -/
def fsW10 : List String := ["/x/dst.txt"]

/-- The digest-failure operation of the dedup scenario. -/
def opW2c : Operation :=
  { from_ := "/b/c.txt", to_ := "/b/out/c.txt", opType := OpType.move, ruleName := some "r" }

/-! ### Theorems -/

lemma matchLoop_eq_find? (env : Env) (p : String) (f : FileInfo) (m : Meta) :
    ∀ rs : List Rule, matchLoop env p f m rs = rs.find? (fullPass env p f m) := by
  intro rs
  induction rs with
  | nil => rfl
  | cons r rs ih =>
    cases h1 : (rule_match env p f r).1 <;> cases h2 : sizeOk m r <;> cases h3 : ageOk m r <;>
      simp [matchLoop, List.find?, fullPass, h1, h2, h3, ih]

/-- C1: for every file and ordered rule list, `match_rule` returns the first
rule (in list order) whose predicates match and whose size/age filters both
pass; a predicate match with a failing filter just continues the scan, and
the result is `None` exactly when no rule fully succeeds (metadata being
unreadable makes every rule fail). -/
theorem claim_C1_match_rule_first_full_pass (env : Env) (cfg : Config) (p : String) :
    match_rule env cfg p =
      match (env.world p).meta with
      | none => none
      | some m => cfg.rules.find? (fullPass env p (env.world p) m) := by
  unfold match_rule
  cases h : (env.world p).meta with
  | none => simp [h]
  | some m => simp [h, matchLoop_eq_find?]

/-- C8: within one rule the predicates are tested with precedence mime, type
preset, extension set, filename regex, external oracle; the result is their
ordered disjunction, and the oracle is consulted exactly when all earlier
predicates failed, the rule has a prompt, and an oracle is configured. -/
theorem claim_C8_rule_predicate_precedence (env : Env) (p : String) (f : FileInfo) (r : Rule) :
    (rule_match env p f r).1 =
      (mimeTest r f || typeTest r f || extTest r f p || regexTestB env r p || aiTestB env r p f) ∧
    ((rule_match env p f r).2 = true ↔
      (mimeTest r f = false ∧ typeTest r f = false ∧ extTest r f p = false ∧
       regexTestB env r p = false ∧ r.ai_prompt.isSome = true ∧ env.oracle.isSome = true)) := by
  unfold rule_match aiTestB
  cases h1 : mimeTest r f <;> cases h2 : typeTest r f <;> cases h3 : extTest r f p <;>
    cases h4 : regexTestB env r p <;>
    cases hp : r.ai_prompt <;> cases ho : env.oracle <;> simp

/-- C7: a target containing `${ai_name}`, `${ext}`, `${name}` or
`${filename}` resolves, after substitution and absolutization under the
base directory, to the destination file path itself; any other target is a
destination directory to which the original filename is appended; in
particular target `${ext}/${name}_copy` applied to `test.txt` substitutes
to the relative path `txt/test_copy`. -/
theorem claim_C7_target_template_resolution (env : Env) (base : String) (rule : Rule)
    (p : String) :
    (hasFilenamePlaceholder rule.target = true →
      resolve_target_path env base rule p =
        (if isAbsolute (resolve_placeholders env rule p) then resolve_placeholders env rule p
         else pathJoin base (resolve_placeholders env rule p))) ∧
    (hasFilenamePlaceholder rule.target = false →
      resolve_target_path env base rule p =
        pathJoin
          (if isAbsolute (resolve_placeholders env rule p) then resolve_placeholders env rule p
           else pathJoin base (resolve_placeholders env rule p))
          (fileName p)) ∧
    resolve_placeholders envC7 ruleC7 "test.txt" = "txt/test_copy" := by
  refine ⟨fun h => ?_, fun h => ?_, by decide⟩
  · simp [resolve_target_path, h]
  · simp [resolve_target_path, h]

/-- C7 witness: the filename-placeholder branch applied at the concrete
example rule and file. -/
theorem claim_C7_witness :
    hasFilenamePlaceholder ruleC7.target = true ∧
    resolve_target_path envC7 "/base" ruleC7 "test.txt" =
      (if isAbsolute (resolve_placeholders envC7 ruleC7 "test.txt") then
        resolve_placeholders envC7 ruleC7 "test.txt"
       else pathJoin "/base" (resolve_placeholders envC7 ruleC7 "test.txt")) :=
  ⟨by decide, (claim_C7_target_template_resolution envC7 "/base" ruleC7 "test.txt").1 (by decide)⟩

/-- C3 fails on the code: `dry_run` performs no source-equals-destination
filtering, so a rule target of `${filename}` plans an operation whose
destination equals its source. -/
theorem claim_C3_counterexample :
    ∃ op ∈ dry_run envC3 cfgC3 "/base" ["/base/x"], op.to_ = op.from_ := by decide

/-- C3 (amended): only `process_single_file` (watch mode) filters no-op
operations: every operation it returns has a destination different from its
source; `dry_run` (batch mode) performs no such filtering. -/
theorem claim_C3_amended_watch_mode_no_noop (env : Env) (cfg : Config) (base p : String)
    (op : Operation) (h : process_single_file env cfg base p = some op) :
    op.to_ ≠ op.from_ := by
  unfold process_single_file at h
  by_cases hf : (env.world p).isFile
  · simp [hf] at h
    cases hm : match_rule env cfg p with
    | none => rw [hm] at h; exact absurd h (by simp)
    | some rule =>
      rw [hm] at h
      simp at h
      obtain ⟨hne, heq⟩ := h
      rw [← heq]
      exact fun hc => hne hc.symm
  · simp [hf] at h

/-- C3 witness: a concrete watch-mode planning with a non-trivial
destination. -/
theorem claim_C3_amended_witness :
    process_single_file envW3 cfgW3 "/b" "/b/f.txt" = some opW3 ∧ opW3.to_ ≠ opW3.from_ :=
  ⟨by decide, claim_C3_amended_watch_mode_no_noop envW3 cfgW3 "/b" "/b/f.txt" opW3 (by decide)⟩

lemma lookup_cons (a k b : String) (es : List (String × String)) :
    ((k, b) :: es).lookup a = if a == k then some b else es.lookup a := by
  cases h : a == k <;> simp [List.lookup, h]

lemma dryRunAux_lookup_some (env : Env) (cfg : Config) (base : String) (h t : String) :
    ∀ (ps : List String) (table : List (String × String)),
      table.lookup h = some t →
      ∀ op ∈ (dryRunAux env cfg base ps table).1,
        dg env op.from_ = some h → op.opType = OpType.hardLink t := by
  intro ps
  induction ps with
  | nil => intro table hl op hop; simp [dryRunAux] at hop
  | cons p ps ih =>
    intro table hl op hop hd
    cases hm : match_rule env cfg p with
    | none =>
      simp only [dryRunAux, plan_file, hm] at hop
      exact ih table hl op hop hd
    | some rule =>
      cases hdig : (env.world p).digest with
      | none =>
        simp only [dryRunAux, plan_file, hm, hdig] at hop
        simp at hop
        rcases hop with hop | hop
        · rw [hop] at hd; simp [dg, hdig] at hd
        · exact ih table hl op hop hd
      | some h2 =>
        cases hlk : table.lookup h2 with
        | some t2 =>
          simp only [dryRunAux, plan_file, hm, hdig, hlk] at hop
          simp at hop
          rcases hop with hop | hop
          · rw [hop] at hd
            simp [dg, hdig] at hd
            rw [hd] at hlk
            rw [hl] at hlk
            rw [hop]
            simp [Option.some_inj.mp hlk]
          · exact ih table hl op hop hd
        | none =>
          simp only [dryRunAux, plan_file, hm, hdig, hlk] at hop
          simp at hop
          have hne : (h == h2) = false := by
            cases hbe : h == h2
            · rfl
            · exfalso
              rw [eq_of_beq hbe, hlk] at hl
              exact Option.noConfusion hl
          rcases hop with hop | hop
          · rw [hop] at hd
            simp [dg, hdig] at hd
            rw [hd] at hne
            simp at hne
          · refine ih _ ?_ op hop hd
            rw [lookup_cons]
            simp [hne, hl]

lemma dryRunAux_group (env : Env) (cfg : Config) (base : String) (h : String) :
    ∀ (ps : List String) (table : List (String × String)),
      table.lookup h = none →
      ((dryRunAux env cfg base ps table).1.filter
          (fun op => decide (dg env op.from_ = some h)) = [] ∨
       ∃ m ms,
         (dryRunAux env cfg base ps table).1.filter
            (fun op => decide (dg env op.from_ = some h)) = m :: ms ∧
         m.opType = OpType.move ∧ ∀ q ∈ ms, q.opType = OpType.hardLink m.to_) := by
  intro ps
  induction ps with
  | nil => intro table _; left; simp [dryRunAux]
  | cons p ps ih =>
    intro table hl
    cases hm : match_rule env cfg p with
    | none =>
      simp only [dryRunAux, plan_file, hm]
      exact ih table hl
    | some rule =>
      cases hdig : (env.world p).digest with
      | none =>
        simp only [dryRunAux, plan_file, hm, hdig]
        have : dg env p = none := by simp [dg, hdig]
        simpa [List.filter, this] using ih table hl
      | some h2 =>
        cases hlk : table.lookup h2 with
        | some t2 =>
          have hne : dg env p ≠ some h := by
            intro hc
            simp [dg, hdig] at hc
            rw [hc] at hlk
            rw [hlk] at hl
            exact Option.noConfusion hl
          simp only [dryRunAux, plan_file, hm, hdig, hlk]
          simpa [List.filter, hne] using ih table hl
        | none =>
          simp only [dryRunAux, plan_file, hm, hdig, hlk]
          by_cases hhh : h2 = h
          · subst hhh
            have hdg : dg env p = some h2 := by simp [dg, hdig]
            right
            refine ⟨{ from_ := p, to_ := resolve_target_path env base rule p,
                      opType := OpType.move, ruleName := some rule.name },
                    (dryRunAux env cfg base ps
                        ((h2, resolve_target_path env base rule p) :: table)).1.filter
                      (fun op => decide (dg env op.from_ = some h2)),
                    ?_, rfl, ?_⟩
            · simp [List.filter, hdg]
            · intro q hq
              simp only [List.mem_filter, decide_eq_true_eq] at hq
              exact dryRunAux_lookup_some env cfg base h2
                (resolve_target_path env base rule p) ps _
                (by rw [lookup_cons]; simp) q hq.1 hq.2
          · have hne : dg env p ≠ some h := by
              intro hc
              simp [dg, hdig] at hc
              exact hhh hc
            have hl2 : ((h2, resolve_target_path env base rule p) :: table).lookup h = none := by
              rw [lookup_cons]
              have : (h == h2) = false := by
                cases hbe : h == h2
                · rfl
                · exact absurd (eq_of_beq hbe).symm hhh
              simp [this, hl]
            simpa [List.filter, hne] using ih _ hl2

lemma dryRunAux_digest_none_move (env : Env) (cfg : Config) (base : String) :
    ∀ (ps : List String) (table : List (String × String)) (op : Operation),
      op ∈ (dryRunAux env cfg base ps table).1 → dg env op.from_ = none →
      op.opType = OpType.move := by
  intro ps
  induction ps with
  | nil => intro table op hop; simp [dryRunAux] at hop
  | cons p ps ih =>
    intro table op hop hd
    cases hm : match_rule env cfg p with
    | none =>
      simp only [dryRunAux, plan_file, hm] at hop
      exact ih table op hop hd
    | some rule =>
      cases hdig : (env.world p).digest with
      | none =>
        simp only [dryRunAux, plan_file, hm, hdig] at hop
        simp at hop
        rcases hop with hop | hop
        · rw [hop]
        · exact ih table op hop hd
      | some h2 =>
        cases hlk : table.lookup h2 with
        | some t2 =>
          simp only [dryRunAux, plan_file, hm, hdig, hlk] at hop
          simp at hop
          rcases hop with hop | hop
          · rw [hop] at hd; simp [dg, hdig] at hd
          · exact ih table op hop hd
        | none =>
          simp only [dryRunAux, plan_file, hm, hdig, hlk] at hop
          simp at hop
          rcases hop with hop | hop
          · rw [hop]
          · exact ih _ op hop hd

lemma dryRunAux_table_from_moves (env : Env) (cfg : Config) (base : String) (h t : String) :
    ∀ (ps : List String) (table : List (String × String)),
      (dryRunAux env cfg base ps table).2.lookup h = some t →
      table.lookup h = some t ∨
      ∃ op ∈ (dryRunAux env cfg base ps table).1,
        dg env op.from_ = some h ∧ op.opType = OpType.move ∧ op.to_ = t := by
  intro ps
  induction ps with
  | nil => intro table hl; left; simpa [dryRunAux] using hl
  | cons p ps ih =>
    intro table hl
    cases hm : match_rule env cfg p with
    | none =>
      simp only [dryRunAux, plan_file, hm] at hl ⊢
      exact ih table hl
    | some rule =>
      cases hdig : (env.world p).digest with
      | none =>
        simp only [dryRunAux, plan_file, hm, hdig] at hl ⊢
        rcases ih table hl with hres | ⟨op, hop, hres⟩
        · exact Or.inl hres
        · exact Or.inr ⟨op, by simpa using Or.inr hop, hres⟩
      | some h2 =>
        cases hlk : table.lookup h2 with
        | some t2 =>
          simp only [dryRunAux, plan_file, hm, hdig, hlk] at hl ⊢
          rcases ih table hl with hres | ⟨op, hop, hres⟩
          · exact Or.inl hres
          · exact Or.inr ⟨op, by simpa using Or.inr hop, hres⟩
        | none =>
          simp only [dryRunAux, plan_file, hm, hdig, hlk] at hl ⊢
          rcases ih _ hl with hres | ⟨op, hop, hres⟩
          · rw [lookup_cons] at hres
            by_cases hbe : (h == h2) = true
            · rw [if_pos hbe] at hres
              simp at hres
              right
              refine ⟨{ from_ := p, to_ := resolve_target_path env base rule p,
                        opType := OpType.move, ruleName := some rule.name },
                      List.mem_cons_self _ _, ?_, rfl, hres⟩
              simp [dg, hdig, eq_of_beq hbe]
            · rw [if_neg hbe] at hres
              exact Or.inl hres
          · exact Or.inr ⟨op, by simpa using Or.inr hop, hres⟩

lemma dryRunAux_hardLink_src (env : Env) (cfg : Config) (base : String) :
    ∀ (ps : List String) (table : List (String × String)) (op : Operation) (o : String),
      op ∈ (dryRunAux env cfg base ps table).1 → op.opType = OpType.hardLink o →
      ∃ h, dg env op.from_ = some h ∧
        (table.lookup h = some o ∨
         ∃ m ∈ (dryRunAux env cfg base ps table).1,
           dg env m.from_ = some h ∧ m.opType = OpType.move ∧ m.to_ = o) := by
  intro ps
  induction ps with
  | nil => intro table op o hop; simp [dryRunAux] at hop
  | cons p ps ih =>
    intro table op o hop hty
    cases hm : match_rule env cfg p with
    | none =>
      simp only [dryRunAux, plan_file, hm] at hop ⊢
      exact ih table op o hop hty
    | some rule =>
      cases hdig : (env.world p).digest with
      | none =>
        simp only [dryRunAux, plan_file, hm, hdig] at hop ⊢
        simp at hop
        rcases hop with hop | hop
        · rw [hop] at hty; exact absurd hty (by simp)
        · rcases ih table op o hop hty with ⟨h, hdg, hres | ⟨m, hmem, hres⟩⟩
          · exact ⟨h, hdg, Or.inl hres⟩
          · exact ⟨h, hdg, Or.inr ⟨m, by simpa using Or.inr hmem, hres⟩⟩
      | some h2 =>
        cases hlk : table.lookup h2 with
        | some t2 =>
          simp only [dryRunAux, plan_file, hm, hdig, hlk] at hop ⊢
          simp at hop
          rcases hop with hop | hop
          · rw [hop] at hty
            simp at hty
            refine ⟨h2, ?_, Or.inl ?_⟩
            · rw [hop]; simp [dg, hdig]
            · rw [hlk, hty]
          · rcases ih table op o hop hty with ⟨h, hdg, hres | ⟨m, hmem, hres⟩⟩
            · exact ⟨h, hdg, Or.inl hres⟩
            · exact ⟨h, hdg, Or.inr ⟨m, by simpa using Or.inr hmem, hres⟩⟩
        | none =>
          simp only [dryRunAux, plan_file, hm, hdig, hlk] at hop ⊢
          simp at hop
          rcases hop with hop | hop
          · rw [hop] at hty; exact absurd hty (by simp)
          · rcases ih _ op o hop hty with ⟨h, hdg, hres | ⟨m, hmem, hres⟩⟩
            · rw [lookup_cons] at hres
              by_cases hbe : (h == h2) = true
              · rw [if_pos hbe] at hres
                simp at hres
                refine ⟨h, hdg, Or.inr
                  ⟨{ from_ := p, to_ := resolve_target_path env base rule p,
                     opType := OpType.move, ruleName := some rule.name },
                   List.mem_cons_self _ _, ?_, rfl, hres⟩⟩
                simp [dg, hdig, eq_of_beq hbe]
              · rw [if_neg hbe] at hres
                exact ⟨h, hdg, Or.inl hres⟩
            · exact ⟨h, hdg, Or.inr ⟨m, by simpa using Or.inr hmem, hres⟩⟩

/-- C2: within one `dry_run` pass, files whose digest computation fails are
plain `Move`s and never enter the digest table (every table entry comes
from a `Move` with that digest); among the operations sharing one
computable digest exactly one is a `Move` — the first planned — and every
other one is a `HardLink` carrying that `Move`'s destination. -/
theorem claim_C2_dedup_single_canonical (env : Env) (cfg : Config) (base : String)
    (ps : List String) (h : String) :
    (∀ op ∈ dry_run env cfg base ps, dg env op.from_ = none → op.opType = OpType.move) ∧
    (∀ h2 t, (dryRunAux env cfg base ps []).2.lookup h2 = some t →
      ∃ op ∈ dry_run env cfg base ps,
        dg env op.from_ = some h2 ∧ op.opType = OpType.move ∧ op.to_ = t) ∧
    ((dry_run env cfg base ps).filter (fun op => decide (dg env op.from_ = some h)) = [] ∨
     ∃ m ms,
       (dry_run env cfg base ps).filter (fun op => decide (dg env op.from_ = some h)) = m :: ms ∧
       m.opType = OpType.move ∧ ∀ q ∈ ms, q.opType = OpType.hardLink m.to_) := by
  refine ⟨?_, ?_, ?_⟩
  · intro op hop hd
    exact dryRunAux_digest_none_move env cfg base ps [] op hop hd
  · intro h2 t hl
    rcases dryRunAux_table_from_moves env cfg base h2 t ps [] hl with hres | hres
    · simp [List.lookup] at hres
    · exact hres
  · exact dryRunAux_group env cfg base h ps [] (by simp [List.lookup])

/-- C2 witness: in the concrete dedup batch the digest-failure file plans a
plain `Move`. -/
theorem claim_C2_witness :
    opW2c ∈ dry_run envW2 cfgW2 "/b" ["/b/a.txt", "/b/b.txt", "/b/c.txt"] ∧
    dg envW2 opW2c.from_ = none ∧ opW2c.opType = OpType.move :=
  ⟨by decide, by decide,
   (claim_C2_dedup_single_canonical envW2 cfgW2 "/b" ["/b/a.txt", "/b/b.txt", "/b/c.txt"] "h1").1
     opW2c (by decide) (by decide)⟩

lemma stepCore_linked (env : Env) (cfg : Config) (jp : Bool) (fs : List String) (pk : Bool)
    (op : Operation) (o t : String) :
    Ev.linked o t ∈ (stepCore env cfg jp fs pk op).dTrace → op.opType = OpType.hardLink o := by
  intro h
  cases pk with
  | true => simp [stepCore] at h
  | false =>
    cases hc : handle_conflict env cfg fs op with
    | panic => simp [stepCore, hc] at h
    | error => simp [stepCore, hc] at h
    | ok r =>
      cases r with
      | none => simp [stepCore, hc] at h
      | some finalTo =>
        cases hr : (doOp fs op finalTo).2 with
        | false => simp [stepCore, hc, hr] at h
        | true =>
          simp only [stepCore, hc, hr, Bool.false_eq_true, if_false, if_true] at h
          cases hty : op.opType with
          | move => simp [hty] at h
          | hardLink original =>
            simp only [hty] at h
            by_cases hmem : op.from_ ∈ fs
            · simp [hmem] at h
              rw [h.1]
            · simp [hmem] at h

lemma execLoop_linked (env : Env) (cfg : Config) (jp : Bool) :
    ∀ (ops : List Operation) (fs : List String) (pk : Bool) (o t : String),
      Ev.linked o t ∈ (execLoop env cfg jp ops fs pk).trace →
      ∃ op ∈ ops, op.opType = OpType.hardLink o := by
  intro ops
  induction ops with
  | nil => intro fs pk o t h; simp [execLoop] at h
  | cons op rest ih =>
    intro fs pk o t h
    simp only [execLoop] at h
    rw [List.mem_append] at h
    rcases h with h | h
    · exact ⟨op, List.mem_cons_self _ _, stepCore_linked env cfg jp fs pk op o t h⟩
    · obtain ⟨op2, hmem, hty⟩ := ih _ _ o t h
      exact ⟨op2, List.mem_cons_of_mem _ hmem, hty⟩

/-- C9: every hard link `execute` creates targets exactly the canonical path
stored inside the operation's `HardLink` at planning time; that stored path
is the destination planned for the canonical `Move` of the same digest
during `dry_run`, and it is never updated afterwards — in the concrete
scenario, conflict resolution renames the canonical move to
`/b/out/a (1).txt` yet the duplicate is linked against the stale planned
path `/b/out/a.txt`. -/
theorem claim_C9_stale_canonical_path (env : Env) (cfg : Config) (jp : Bool) :
    (∀ (ops : List Operation) (fs : List String) (o t : String),
      Ev.linked o t ∈ (executeOps env cfg jp fs ops).trace →
      ∃ op ∈ ops, op.opType = OpType.hardLink o) ∧
    (∀ (base : String) (ps : List String) (op : Operation) (o : String),
      op ∈ dry_run env cfg base ps → op.opType = OpType.hardLink o →
      ∃ m ∈ dry_run env cfg base ps,
        dg env m.from_ = dg env op.from_ ∧ m.opType = OpType.move ∧ m.to_ = o) ∧
    (Ev.linked "/b/out/a.txt" "/b/out/b.txt" ∈
       (execute envC9 cfgC9 "/b" true fsC9 ["/b/a.txt", "/b/b.txt"]).trace ∧
     (∃ fop ∈ (execute envC9 cfgC9 "/b" true fsC9 ["/b/a.txt", "/b/b.txt"]).journal,
        fop.from_ = "/b/a.txt" ∧ fop.to_ = "/b/out/a (1).txt") ∧
     ("/b/out/a (1).txt" : String) ≠ "/b/out/a.txt") := by
  refine ⟨?_, ?_, by decide⟩
  · intro ops fs o t h
    exact execLoop_linked env cfg jp ops fs false o t h
  · intro base ps op o hop hty
    rcases dryRunAux_hardLink_src env cfg base ps [] op o hop hty with ⟨h, hdg, hres | hres⟩
    · simp [List.lookup] at hres
    · obtain ⟨m, hmem, hdgm, hmty, hmto⟩ := hres
      exact ⟨m, hmem, hdgm.trans hdg.symm, hmty, hmto⟩

/-- C9 witness: the linked-event provenance applied at the concrete
stale-path scenario. -/
theorem claim_C9_witness :
    ∃ op ∈ dry_run envC9 cfgC9 "/b" ["/b/a.txt", "/b/b.txt"],
      op.opType = OpType.hardLink "/b/out/a.txt" :=
  (claim_C9_stale_canonical_path envC9 cfgC9 true).1
    (dry_run envC9 cfgC9 "/b" ["/b/a.txt", "/b/b.txt"]) fsC9 "/b/out/a.txt" "/b/out/b.txt"
    (by decide)

lemma rename_probe_eq_find (fs : List String) (dest : String) :
    ∀ (fuel i : Nat),
      rename_probe fs dest i fuel =
        ((List.range' i fuel).find? (fun j => !decide (renameCandidate dest j ∈ fs))).map
          (renameCandidate dest) := by
  intro fuel
  induction fuel with
  | zero => intro i; simp [rename_probe]
  | succ fuel ih =>
    intro i
    by_cases hmem : renameCandidate dest i ∈ fs
    · simp [rename_probe, List.range', List.find?, hmem, ih]
    · simp [rename_probe, List.range', List.find?, hmem]

/-- C4: conflict resolution returns an unoccupied destination unchanged;
for an occupied destination the matched rule's policy decides: Skip yields
`None`, Overwrite yields the destination unchanged, and Rename (the
default) yields the first candidate `"{stem} ({i}){ext}"` for `i` in
`1..998` that does not exist, or an error when all 998 exist — and such a
conflict error only drops that one operation while the execute loop
continues with the rest. -/
theorem claim_C4_conflict_policy (env : Env) (cfg : Config) (fs : List String)
    (op : Operation) :
    (op.to_ ∉ fs → handle_conflict env cfg fs op = HCResult.ok (some op.to_)) ∧
    (∀ rule, op.to_ ∈ fs → match_rule env cfg op.from_ = some rule →
      ((rule.conflict.getD ConflictStrategy.rename = ConflictStrategy.skip →
         handle_conflict env cfg fs op = HCResult.ok none) ∧
       (rule.conflict.getD ConflictStrategy.rename = ConflictStrategy.overwrite →
         handle_conflict env cfg fs op = HCResult.ok (some op.to_)) ∧
       (rule.conflict.getD ConflictStrategy.rename = ConflictStrategy.rename →
         handle_conflict env cfg fs op =
           match (List.range' 1 998).find?
               (fun j => !decide (renameCandidate op.to_ j ∈ fs)) with
           | some j => HCResult.ok (some (renameCandidate op.to_ j))
           | none => HCResult.error))) ∧
    (∀ (jp : Bool) (rest : List Operation),
      handle_conflict env cfg fs op = HCResult.error →
      execLoop env cfg jp (op :: rest) fs false =
        { execLoop env cfg jp rest fs false with
            trace := Ev.conflictError op :: (execLoop env cfg jp rest fs false).trace }) := by
  refine ⟨?_, ?_, ?_⟩
  · intro hout
    simp [handle_conflict, hout]
  · intro rule hin hm
    refine ⟨fun hs => ?_, fun hs => ?_, fun hs => ?_⟩
    · simp [handle_conflict, hin, hm, hs]
    · simp [handle_conflict, hin, hm, hs]
    · simp only [handle_conflict, hin, if_true, hm, hs, rename_probe_eq_find]
      cases hf : (List.range' 1 998).find? (fun j => !decide (renameCandidate op.to_ j ∈ fs)) with
      | none => simp [hf]
      | some j => simp [hf]
  · intro jp rest herr
    simp [execLoop, stepCore, herr]

/-- C4 witness: with the destination and the first candidate occupied, the
Rename policy returns the second candidate. -/
theorem claim_C4_witness :
    handle_conflict envW4 cfgW4 fsW4 opW4 = HCResult.ok (some "/b/out/s (2).pdf") := by
  have h := ((claim_C4_conflict_policy envW4 cfgW4 fsW4 opW4).2.1 ruleW4
    (by decide) (by decide)).2.2 (by decide)
  exact h.trans (by decide)

/-- C10: when the destination already exists, `handle_conflict` re-runs rule
matching on the source and unwraps the result, panicking exactly when no
rule matches the source at conflict-resolution time (for example because
its metadata became unreadable); whenever some rule still matches, the
unwrap cannot panic. -/
theorem claim_C10_conflict_unwrap_panic (env : Env) (cfg : Config) (fs : List String)
    (op : Operation) :
    (op.to_ ∈ fs → match_rule env cfg op.from_ = none →
      handle_conflict env cfg fs op = HCResult.panic) ∧
    (∀ rule, match_rule env cfg op.from_ = some rule →
      handle_conflict env cfg fs op ≠ HCResult.panic) := by
  constructor
  · intro hin hm
    simp [handle_conflict, hin, hm]
  · intro rule hm
    unfold handle_conflict
    by_cases hin : op.to_ ∈ fs
    · simp only [hin, if_true, hm]
      cases rule.conflict.getD ConflictStrategy.rename with
      | skip => simp
      | overwrite => simp
      | rename =>
        cases hp : rename_probe fs op.to_ 1 998 with
        | none => simp [hp]
        | some q => simp [hp]
    · simp [hin]

/-- C10 witness: occupied destination plus unreadable source metadata gives
the panic. -/
theorem claim_C10_witness :
    handle_conflict envW10 cfgW10 fsW10 opW10 = HCResult.panic :=
  (claim_C10_conflict_unwrap_panic envW10 cfgW10 fsW10 opW10).1 (by decide) (by decide)

/-- C5: with a journal path given, one execute-loop iteration appends a
journal entry (to the in-memory journal and, identically, to the journal
file) exactly when conflict resolution produced a final destination and the
filesystem effect succeeded — the entry being the operation finalized at
that destination; failed and skipped operations append nothing; and the
journal-file append is the final event of the iteration, emitted before the
loop proceeds to the remaining operations. -/
theorem claim_C5_journal_iff_success (env : Env) (cfg : Config) (fs : List String)
    (op : Operation) (rest : List Operation) :
    ((stepCore env cfg true fs false op).dJournal =
      (match handle_conflict env cfg fs op with
       | HCResult.ok (some t) =>
         if (doOp fs op t).2 then [{ op with to_ := t }] else []
       | _ => [])) ∧
    (stepCore env cfg true fs false op).dJfile = (stepCore env cfg true fs false op).dJournal ∧
    (execLoop env cfg true (op :: rest) fs false).journal =
      (stepCore env cfg true fs false op).dJournal ++
      (execLoop env cfg true rest (stepCore env cfg true fs false op).fs
        (stepCore env cfg true fs false op).panicked).journal ∧
    (execLoop env cfg true (op :: rest) fs false).jfile =
      (stepCore env cfg true fs false op).dJfile ++
      (execLoop env cfg true rest (stepCore env cfg true fs false op).fs
        (stepCore env cfg true fs false op).panicked).jfile ∧
    (execLoop env cfg true (op :: rest) fs false).trace =
      (stepCore env cfg true fs false op).dTrace ++
      (execLoop env cfg true rest (stepCore env cfg true fs false op).fs
        (stepCore env cfg true fs false op).panicked).trace ∧
    (∀ t, handle_conflict env cfg fs op = HCResult.ok (some t) → (doOp fs op t).2 = true →
      ∃ pre, (stepCore env cfg true fs false op).dTrace = pre ++ [Ev.append op t]) := by
  refine ⟨?_, ?_, rfl, rfl, rfl, ?_⟩
  · cases hc : handle_conflict env cfg fs op with
    | panic => simp [stepCore, hc]
    | error => simp [stepCore, hc]
    | ok r =>
      cases r with
      | none => simp [stepCore, hc]
      | some t =>
        cases hr : (doOp fs op t).2 with
        | true => simp [stepCore, hc, hr]
        | false => simp [stepCore, hc, hr]
  · cases hc : handle_conflict env cfg fs op with
    | panic => simp [stepCore, hc]
    | error => simp [stepCore, hc]
    | ok r =>
      cases r with
      | none => simp [stepCore, hc]
      | some t =>
        cases hr : (doOp fs op t).2 with
        | true => simp [stepCore, hc, hr]
        | false => simp [stepCore, hc, hr]
  · intro t hc hsucc
    cases hty : op.opType with
    | move => exact ⟨[Ev.attempt op t], by simp [stepCore, hc, hsucc, hty]⟩
    | hardLink original =>
      by_cases hmem : op.from_ ∈ fs
      · exact ⟨[Ev.attempt op t, Ev.linked original t], by simp [stepCore, hc, hsucc, hty, hmem]⟩
      · exact ⟨[Ev.attempt op t], by simp [stepCore, hc, hsucc, hty, hmem]⟩

/-- C5 witness: a successful plain move appends its entry, with the append
as the iteration's final event. -/
theorem claim_C5_witness :
    ∃ pre, (stepCore envW5 cfgW5 true fsW5 false opW5).dTrace =
      pre ++ [Ev.append opW5 "/b/d/s.txt"] :=
  (claim_C5_journal_iff_success envW5 cfgW5 fsW5 opW5 []).2.2.2.2.2
    "/b/d/s.txt" (by decide) (by decide)

/-- C6: undo replays the loaded journal in reverse order — the last journal
entry is processed first and the restored counts add up; an entry whose
recorded destination still exists (and whose source slot is free, so the
move itself succeeds) is moved back to its recorded source and counted as
restored; an entry whose destination no longer exists is silently skipped:
no abort, state and count unchanged. -/
theorem claim_C6_undo_reverse_replay (fs : List String) (ops : List Operation)
    (op : Operation) :
    (undo fs (ops ++ [op]) =
      (undoStep fs op).bind (fun s => (undo s.1 ops).map (fun r => (r.1, s.2 + r.2)))) ∧
    (op.to_ ∈ fs → op.from_ ∉ fs →
      undoStep fs op = some (op.from_ :: fs.erase op.to_, 1)) ∧
    (op.to_ ∉ fs → undoStep fs op = some (fs, 0)) := by
  refine ⟨?_, fun hin hout => ?_, fun hout => ?_⟩
  · unfold undo
    rw [List.reverse_append]
    simp only [List.reverse_singleton, List.singleton_append]
    cases hs : undoStep fs op with
    | none => simp [undoLoop, hs]
    | some s =>
      cases s with
      | mk fs2 c => simp [undoLoop, hs]
  · simp [undoStep, hin, fsMove, hout]
  · simp [undoStep, hout]

/-- C6 witness: in the concrete journal the surviving destination is moved
back and counted. -/
theorem claim_C6_witness :
    undoStep fsW6 opW6a = some ("/b/a.txt" :: fsW6.erase "/b/out/a.txt", 1) :=
  (claim_C6_undo_reverse_replay fsW6 [] opW6a).2.1 (by decide) (by decide)

end Rarch
